import Mathlib

/-!
Shallow embedding of the Self-assign vote-ingestion pipeline.

The embedding follows `src/ingest1.py` (schema inference `perform_eda` and
`VoteDataIngestor.ingest_votes`), `src/ingest.py` (the earlier `perform_eda`),
and the view query of `src/outliers.py`.  Python `dict`s become association
lists (keys are unique in any record produced by `json.loads`), machine-level
dates become a plain record of numeric fields, and the storage engine — which
is not part of the sources — is modelled from the spec as a map from
primary-key value to stored row with insert-or-replace semantics.
-/

namespace SelfAssign

/-- A JSON scalar value as it occurs in the vote feed.  The spec's data model
(§3, §9) restricts raw record values to "string, integer, or absent"; absence
is represented by the key simply missing from the record. -/
inductive JValue where
  | jint (n : Int)
  | jstr (s : String)
deriving DecidableEq, Repr

/-- A parsed JSON object: association list from field name to scalar value
(the Python `dict` produced by `json.loads`; keys are unique). -/
abbrev Record := List (String × JValue)

/-- A schema as `ingest_votes` receives it: ordered (column name, type string)
pairs.  Types are kept as the literal strings the source compares against
(`'INTEGER'`, `'TIMESTAMP'`; any other string falls through every `if`/`elif`
and is passed through unconverted, which is also what happens to the primary
key column after `main` appends `' PRIMARY KEY'` to its type). -/
abbrev Schema := List (String × String)

/-- A parsed calendar timestamp, the result of a successful
`datetime.strptime(value, '%Y-%m-%dT%H:%M:%S')`. -/
structure Timestamp where
  year : Nat
  month : Nat
  day : Nat
  hour : Nat
  minute : Nat
  second : Nat
deriving DecidableEq, Repr

/-- Numeric value of a decimal digit character, `none` for non-digits. -/
def digitVal (c : Char) : Option Nat :=
  if '0' ≤ c ∧ c ≤ '9' then some (c.toNat - '0'.toNat) else none

/-- Read two decimal digits of `l` starting at index `i`. -/
def read2 (l : List Char) (i : Nat) : Option Nat := do
  let a ← l.get? i >>= digitVal
  let b ← l.get? (i + 1) >>= digitVal
  pure (10 * a + b)

/-- Read four decimal digits of `l` starting at index `i`. -/
def read4 (l : List Char) (i : Nat) : Option Nat := do
  let a ← read2 l i
  let b ← read2 l (i + 2)
  pure (100 * a + b)

/-- Gregorian leap-year test, as Python's `calendar`/`datetime` use it. -/
def isLeap (y : Nat) : Bool :=
  y % 4 = 0 && (y % 100 != 0 || y % 400 = 0)

/-- Number of days in a month, used by `datetime` to validate the day field. -/
def daysInMonth (y m : Nat) : Nat :=
  if m = 2 then (if isLeap y then 29 else 28)
  else if m = 4 ∨ m = 6 ∨ m = 9 ∨ m = 11 then 30
  else 31

/-- Model of `datetime.strptime(s, '%Y-%m-%dT%H:%M:%S')`: a fixed-width
`YYYY-MM-DDTHH:MM:SS` string with a literal `'T'` separator, each field a
zero-padded decimal, validated against `datetime`'s ranges
(`MINYEAR = 1`, `MAXYEAR = 9999`, real month lengths).  Returns `none` where
Python raises `ValueError`. -/
def parseTs (s : String) : Option Timestamp :=
  let l := s.toList
  if l.length = 19 ∧ l.get? 4 = some '-' ∧ l.get? 7 = some '-' ∧
      l.get? 10 = some 'T' ∧ l.get? 13 = some ':' ∧ l.get? 16 = some ':' then
    match read4 l 0, read2 l 5, read2 l 8, read2 l 11, read2 l 14, read2 l 17 with
    | some y, some mo, some d, some h, some mi, some sec =>
        if 1 ≤ y ∧ y ≤ 9999 ∧ 1 ≤ mo ∧ mo ≤ 12 ∧ 1 ≤ d ∧ d ≤ daysInMonth y mo ∧
            h ≤ 23 ∧ mi ≤ 59 ∧ sec ≤ 59 then
          some ⟨y, mo, d, h, mi, sec⟩
        else none
    | _, _, _, _, _, _ => none
  else none

/-- Accumulate a decimal digit string into a natural number. -/
def digitsToNat (ds : List Char) : Nat :=
  ds.foldl (fun a c => 10 * a + (c.toNat - '0'.toNat)) 0

/-- Whitespace as Python's `str.strip` removes it around an integer literal. -/
def isSpaceChar (c : Char) : Bool :=
  c == ' ' || c == '\t' || c == '\n' || c == '\r'

/-- Strip leading and trailing whitespace from a character list. -/
def trimChars (l : List Char) : List Char :=
  ((l.dropWhile isSpaceChar).reverse.dropWhile isSpaceChar).reverse

/-- Model of Python `int(s)` on a string: surrounding whitespace is stripped,
an optional single sign is allowed, and the remainder must be a non-empty run
of decimal digits.  Returns `none` where Python raises `ValueError`. -/
def pyIntOfString (s : String) : Option Int :=
  match trimChars s.toList with
  | '-' :: ds =>
      if ds ≠ [] ∧ ds.all (fun c => decide ('0' ≤ c ∧ c ≤ '9')) then
        some (-(digitsToNat ds : Int))
      else none
  | '+' :: ds =>
      if ds ≠ [] ∧ ds.all (fun c => decide ('0' ≤ c ∧ c ≤ '9')) then
        some (digitsToNat ds : Int)
      else none
  | ds =>
      if ds ≠ [] ∧ ds.all (fun c => decide ('0' ≤ c ∧ c ≤ '9')) then
        some (digitsToNat ds : Int)
      else none

/-- The `is_int` helper of `perform_eda` in `src/ingest1.py`: `int(value)`
succeeds on every integer and on integer-shaped strings (`ValueError` is
caught and reported as `False`). -/
def isIntVal : JValue → Bool
  | .jint _ => true
  | .jstr s => (pyIntOfString s).isSome

/-! ### Schema inference: `perform_eda` of `src/ingest1.py` -/

/-- Does record `r` contain field `c` (Python `c in vote`)? -/
def containsKey (r : Record) (c : String) : Bool :=
  r.any (fun kv => kv.1 == c)

/-- All field names, in first-seen order across the sample — the key order of
the `defaultdict`s `column_counts`/`column_types` in `perform_eda`. -/
def columnsInOrder (sample : List Record) : List String :=
  sample.foldl (fun acc r =>
    r.foldl (fun a kv => if a.contains kv.1 then a else a ++ [kv.1]) acc) []

/-- `column_counts[c]`: in how many sampled records does field `c` occur? -/
def colCount (sample : List Record) (c : String) : Nat :=
  (sample.filter (fun r => containsKey r c)).length

/-- The observed values of field `c`, one per record that contains it
(the values appended to `column_types[c]` before classification). -/
def occList (sample : List Record) (c : String) : List JValue :=
  sample.filterMap (fun r => List.lookup c r)

/-- Number of observed occurrences of `c` classified `"INTEGER"` by `is_int`. -/
def intCount (sample : List Record) (c : String) : Nat :=
  ((occList sample c).filter isIntVal).length

/-- `len(column_types[c])`: total observed occurrences of `c`. -/
def occCount (sample : List Record) (c : String) : Nat :=
  (occList sample c).length

/-- The majority classification of `perform_eda`:
`"INTEGER"` when `types.count("INTEGER") > len(types) / 2`, else `"STRING"`
(over the integers, `cnt > len / 2` in Python's exact real division is
`2 * cnt > len`). -/
def majorityType (sample : List Record) (c : String) : String :=
  if 2 * intCount sample c > occCount sample c then "INTEGER" else "STRING"

/-- The inferred schema of `perform_eda` (`src/ingest1.py`), as the map from
column name to inferred type.  A column is present iff it occurs in the sample
and meets the presence threshold `count >= 0.97 * total_rows` (the float
literal `0.97` is modelled by the exact rational comparison
`100 * count ≥ 97 * total`); a retained `CreationDate` is overridden to
`"TIMESTAMP"` after majority typing.  The Python `dict` is produced by
iterating a `set`, whose order is unspecified, so the schema is modelled by
its graph. -/
def inferredType (sample : List Record) (c : String) : Option String :=
  if (columnsInOrder sample).contains c ∧
      100 * colCount sample c ≥ 97 * sample.length then
    some (if c = "CreationDate" then "TIMESTAMP" else majorityType sample c)
  else none

/-- `perform_eda` of `src/ingest1.py`: the primary key is the first field (in
first-seen order) whose occurrence count equals `total_rows`; with no such
field the function raises `ValueError` (modelled as `none`).  Value
uniqueness is NOT checked. -/
def performEda (sample : List Record) :
    Option ((String → Option String) × String) :=
  match (columnsInOrder sample).find?
      (fun c => colCount sample c == sample.length) with
  | some pk => some (inferredType sample, pk)
  | none => none

/-! ### Schema inference: `perform_eda` of `src/ingest.py` (earlier version) -/

/-- Column typing of `src/ingest.py`: the first observed value of a column
decides its type — `INTEGER` for a JSON integer, `TIMESTAMP` for a string
that `strptime('%Y-%m-%dT%H:%M:%S')` accepts, else `STRING`. -/
def columnTypeV0 (sample : List Record) (c : String) : Option String :=
  match (occList sample c).head? with
  | some (.jint _) => some "INTEGER"
  | some (.jstr s) => some (if (parseTs s).isSome then "TIMESTAMP" else "STRING")
  | none => none

/-- `perform_eda` of `src/ingest.py`: the primary key is the first column (in
first-seen order) all of whose observed values are distinct
(`all(count == 1 for count in counts.values())`); full presence is not
required.  With no such column it raises `ValueError` (modelled as `none`). -/
def performEdaV0 (sample : List Record) :
    Option ((String → Option String) × String) :=
  match (columnsInOrder sample).find?
      (fun c => decide (occList sample c).Nodup) with
  | some pk => some (columnTypeV0 sample, pk)
  | none => none

/-! ### Per-record ingestion: `VoteDataIngestor.ingest_votes`

The per-record body is identical in `src/ingest.py` and `src/ingest1.py`:
`json.loads` runs *outside* the `try`; inside it, missing schema columns get
defaults, extra fields are reported, every schema column is coerced, and the
coerced row is upserted.  `ValueError`/`KeyError` are caught (record skipped);
any other exception — a `json` parse error before the `try`, or a `TypeError`
from `strptime` on a non-string — propagates and aborts the run. -/

/-- A stored (coerced) cell value.  `INTEGER` columns hold Python ints,
`TIMESTAMP` columns hold `datetime` objects, everything else is passed
through as the raw scalar. -/
inductive DBValue where
  | int (n : Int)
  | str (s : String)
  | ts (t : Timestamp)
deriving DecidableEq, Repr

/-- Result of coercing one value: `ok`, a caught `ValueError`/`KeyError`
(`err`), or an uncaught `TypeError` (`fatal`). -/
inductive CVal where
  | ok (v : DBValue)
  | err
  | fatal
deriving DecidableEq, Repr

/-- Coerce the value found (or not found) for one schema column, following the
`if col_type == 'INTEGER' / elif col_type == 'TIMESTAMP' / else` chain of
`ingest_votes`:
* `INTEGER`: `int(vote[c])` — `KeyError` if absent, `ValueError` on a
  non-integer string, both caught;
* `TIMESTAMP`: `datetime.strptime(vote[c], '%Y-%m-%dT%H:%M:%S')` — `KeyError`
  if absent (caught), `ValueError` on a bad format (caught), `TypeError` on a
  non-string value (NOT caught: `fatal`);
* any other type string: `vote[c]` appended unconverted — `KeyError` if
  absent (caught). -/
def coerceVal (ty : String) (v : Option JValue) : CVal :=
  if ty = "INTEGER" then
    match v with
    | none => .err
    | some (.jint n) => .ok (.int n)
    | some (.jstr s) =>
        match pyIntOfString s with
        | some n => .ok (.int n)
        | none => .err
  else if ty = "TIMESTAMP" then
    match v with
    | none => .err
    | some (.jint _) => .fatal
    | some (.jstr s) =>
        match parseTs s with
        | some t => .ok (.ts t)
        | none => .err
  else
    match v with
    | none => .err
    | some (.jint n) => .ok (.int n)
    | some (.jstr s) => .ok (.str s)

/-- Result of the coercion loop over all schema columns: the full
`insert_values` row (paired with its column names), or the first caught /
uncaught exception. -/
inductive CRow where
  | ok (row : List (String × DBValue))
  | err
  | fatal
deriving DecidableEq, Repr

/-- The coercion loop of `ingest_votes`: columns in schema order, first
exception wins. -/
def coerceRow (r : Record) : Schema → CRow
  | [] => .ok []
  | (c, ty) :: rest =>
    match coerceVal ty (List.lookup c r) with
    | .ok v =>
        match coerceRow r rest with
        | .ok row => .ok ((c, v) :: row)
        | .err => .err
        | .fatal => .fatal
    | .err => .err
    | .fatal => .fatal

/-- The default injected for a missing column of type `ty`:
`0` for `INTEGER`, `datetime.now().strftime('%Y-%m-%d %H:%M:%S')` (the
string `now`) for `TIMESTAMP`, nothing for any other type. -/
def defaultFor (ty : String) (now : String) : Option JValue :=
  if ty = "INTEGER" then some (.jint 0)
  else if ty = "TIMESTAMP" then some (.jstr now)
  else none

/-- The default-injection loop of `ingest_votes`: for each schema column
absent from the (growing) record, append its default, mutating the record in
schema-column order. -/
def inject (now : String) : Schema → Record → Record
  | [], r => r
  | (c, ty) :: rest, r =>
    if containsKey r c then inject now rest r
    else
      match defaultFor ty now with
      | some v => inject now rest (r ++ [(c, v)])
      | none => inject now rest r

/-- Outcome of one record inside the `try`: upserted with a coerced row,
skipped by the `except (ValueError, KeyError)` handler, or aborted by an
uncaught exception. -/
inductive Outcome where
  | inserted (row : List (String × DBValue))
  | skipped
  | crashed
deriving DecidableEq, Repr

/-- Result of processing one parsed record: its outcome together with the
extra fields reported by the `"Extra columns found and ignored"` diagnostic
(the set `vote.keys() - columns.keys()`, computed after default injection;
the diagnostic is printed exactly when this list is non-empty). -/
structure StepResult where
  out : Outcome
  extras : List String
deriving DecidableEq, Repr

/-- Process one parsed record as the `try` body of `ingest_votes` does:
inject defaults, compute the extra-field diagnostic, coerce every schema
column. -/
def processRecord (cols : Schema) (now : String) (rec : Record) : StepResult :=
  let r := inject now cols rec
  { extras := ((r.map Prod.fst).dedup).filter
      (fun k => !((cols.map Prod.fst).contains k))
    out :=
      match coerceRow r cols with
      | .ok row => .inserted row
      | .err => .skipped
      | .fatal => .crashed }

/-- One physical line of the source file.  `malformed` stands for a line on
which `json.loads(line.strip())` raises (this happens *before* the `try`, so
it is never caught); a line whose JSON is not an object also aborts the run
(uncaught `TypeError` at `col_name not in vote`) and is covered by the same
constructor. -/
inductive JLine where
  | malformed
  | obj (rec : Record)

/-- Modelled from the spec: the storage engine behind `db.DuckDBConnection`
(not under `src/`).  Spec §3/§6: the destination relation holds one row per
distinct primary-key value, with upsert-by-primary-key semantics. -/
abbrev Rel := DBValue → Option (List (String × DBValue))

/-- The empty relation (freshly created table). -/
def emptyRel : Rel := fun _ => none

/-- Modelled from the spec: `INSERT OR REPLACE` keyed by the table's primary
key column `pk` — if a row with the new row's key exists it is replaced
entirely, otherwise the row is inserted. -/
def upsert (pk : String) (row : List (String × DBValue)) (R : Rel) : Rel :=
  match List.lookup pk row with
  | some k => fun q => if q = k then some row else R q
  | none => R

/-- The line loop of `ingest_votes`: process lines in order against relation
`R`; a malformed line or an uncaught per-record exception aborts the run
(second component `true`), leaving the rows already upserted in place. -/
def runIngest (cols : Schema) (now : String) (pk : String) :
    List JLine → Rel → Rel × Bool
  | [], R => (R, false)
  | .malformed :: _, R => (R, true)
  | .obj rec :: rest, R =>
    match (processRecord cols now rec).out with
    | .inserted row => runIngest cols now pk rest (upsert pk row R)
    | .skipped => runIngest cols now pk rest R
    | .crashed => (R, true)

/-- Two decimal digits, zero-padded — Python's `%m`, `%d`, `%H`, `%M`, `%S`
(every `datetime` field rendered this way is below 100, so the width is
always exactly 2). -/
def pad2 (n : Nat) : List Char :=
  [Nat.digitChar (n / 10 % 10), Nat.digitChar (n % 10)]

/-- Four decimal digits, zero-padded — Python's `%Y` (a `datetime` year is
between 1 and `MAXYEAR = 9999`, so the width is always exactly 4). -/
def pad4 (n : Nat) : List Char :=
  [Nat.digitChar (n / 1000 % 10), Nat.digitChar (n / 100 % 10),
   Nat.digitChar (n / 10 % 10), Nat.digitChar (n % 10)]

/-- `datetime.now().strftime('%Y-%m-%d %H:%M:%S')` — the ingestion-time
placeholder injected for a missing `TIMESTAMP` column.  Note the space
separator between date and time. -/
def strftimeSpace (t : Timestamp) : String :=
  String.mk (pad4 t.year ++ '-' :: pad2 t.month ++ '-' :: pad2 t.day ++
    ' ' :: pad2 t.hour ++ ':' :: pad2 t.minute ++ ':' :: pad2 t.second)

/-! ### Auxiliary notions for the ingestion proofs -/

/-- The type of the first schema entry for column `c` that carries a default
(`INTEGER` or `TIMESTAMP`); injection for a missing `c` uses exactly this
entry, and at most one default is ever appended per key. -/
def firstDefault (cols : Schema) (c : String) : Option String :=
  match cols with
  | [] => none
  | (k, ty) :: rest =>
    if k = c ∧ (ty = "INTEGER" ∨ ty = "TIMESTAMP") then some ty
    else firstDefault rest c

/-- The value `inject` appends for a missing column whose first defaultable
type is `ty`. -/
def defaultVal (now ty : String) : JValue :=
  if ty = "INTEGER" then .jint 0 else .jstr now

/-- The sequence of successful upserts a run performs, as (key, row) pairs,
cut off at the first aborting line. -/
def writesOf (cols : Schema) (now : String) (pk : String) :
    List JLine → List (DBValue × List (String × DBValue))
  | [] => []
  | .malformed :: _ => []
  | .obj rec :: rest =>
    match (processRecord cols now rec).out with
    | .inserted row =>
        (match List.lookup pk row with
         | some k => [(k, row)]
         | none => []) ++ writesOf cols now pk rest
    | .skipped => writesOf cols now pk rest
    | .crashed => []

/-- Replay a sequence of keyed writes against a relation, later writes
overriding earlier ones. -/
def applyW (R : Rel) : List (DBValue × List (String × DBValue)) → Rel
  | [] => R
  | kw :: ws => applyW (fun q => if q = kw.1 then some kw.2 else R q) ws

/-- The last write for key `k` in a write sequence, if any. -/
def findLastW (k : DBValue) :
    List (DBValue × List (String × DBValue)) →
      Option (List (String × DBValue))
  | [] => none
  | kw :: ws =>
    match findLastW k ws with
    | some row => some row
    | none => if k = kw.1 then some kw.2 else none

/-! ### The outlier view: `OutlierDetector.create_view` of `src/outliers.py`

The view is a single SQL query over the votes relation; its meaning is
embedded directly.  A stored vote row enters the aggregation through its
week bucket (`DATE_TRUNC('week', CreationDate)`) and its `VoteTypeId`; the
concrete `(Year, WeekNumber)` rendering of a surviving week is a projection
of the week bucket and does not affect which weeks survive. -/

/-- A vote row as the view query reads it: the week bucket of its
`CreationDate` and its `VoteTypeId`. -/
structure VoteRow where
  week : Int
  voteTypeId : Int
deriving DecidableEq, Repr

/-- `WHERE VoteTypeId = 2`: the rows that count toward the aggregation. -/
def matching (rows : List VoteRow) : List VoteRow :=
  rows.filter (fun r => r.voteTypeId == 2)

/-- `GROUP BY Week`: the distinct week buckets present among matching rows. -/
def weeks (rows : List VoteRow) : List Int :=
  ((matching rows).map VoteRow.week).dedup

/-- `COUNT(*)` for one week bucket over the matching rows. -/
def weekCount (rows : List VoteRow) (w : Int) : Nat :=
  ((matching rows).filter (fun r => r.week == w)).length

/-- The per-week counts (`vote_counts`), one per observed week. -/
def counts (rows : List VoteRow) : List ℚ :=
  (weeks rows).map (fun w => (weekCount rows w : ℚ))

/-- `AVG(VoteCount)` over the observed weeks. -/
def meanCount (rows : List VoteRow) : ℚ :=
  (counts rows).sum / (counts rows).length

/-- The population variance of the per-week counts —
`STDDEV_POP(VoteCount)` is its square root. -/
def varCount (rows : List VoteRow) : ℚ :=
  ((counts rows).map (fun c => (c - meanCount rows) ^ 2)).sum /
    (counts rows).length

/-- The decidable form of the view's `WHERE VoteCount > mean + 2 * stddev`
filter: over the rationals, `m + 2 * sqrt v < c` (with `0 ≤ v`) is
`m < c ∧ 4 * v < (c - m) ^ 2`; the equivalence with the square-root form is
proved below (`outlierCond_iff_sqrt`). -/
def outlierCond (c m v : ℚ) : Bool :=
  decide (m < c) && decide (4 * v < (c - m) ^ 2)

/-- The weeks selected into `blog_analysis.outlier_weeks`: observed weeks
whose matching vote count exceeds `mean + 2 * stddev_pop`. -/
def outlierWeeks (rows : List VoteRow) : List Int :=
  (weeks rows).filter
    (fun w => outlierCond (weekCount rows w) (meanCount rows) (varCount rows))

end SelfAssign


/-! ## Theorems -/

namespace SelfAssign

theorem parseTs_strftimeSpace (t : Timestamp) : parseTs (strftimeSpace t) = none :=
  rfl

theorem mem_recKeysFold (r : Record) (a : List String) (x : String) :
    x ∈ r.foldl (fun a kv => if a.contains kv.1 then a else a ++ [kv.1]) a ↔
      x ∈ a ∨ containsKey r x := by
  induction r generalizing a with
  | nil => simp [containsKey]
  | cons kv rest ih =>
    rw [List.foldl_cons, ih]
    simp only [containsKey, List.any_cons, Bool.or_eq_true, beq_iff_eq]
    by_cases hc : a.contains kv.1 = true
    · have hm : kv.1 ∈ a := by simpa using hc
      rw [if_pos hc]
      constructor
      · rintro (h | h)
        · exact Or.inl h
        · exact Or.inr (Or.inr h)
      · rintro (h | h | h)
        · exact Or.inl h
        · exact Or.inl (by rwa [← h])
        · exact Or.inr h
    · rw [if_neg hc]
      simp only [List.mem_append, List.mem_singleton]
      constructor
      · rintro ((h | h) | h)
        · exact Or.inl h
        · exact Or.inr (Or.inl h.symm)
        · exact Or.inr (Or.inr h)
      · rintro (h | h | h)
        · exact Or.inl (Or.inl h)
        · exact Or.inl (Or.inr h.symm)
        · exact Or.inr h

theorem mem_columnsInOrder (sample : List Record) (x : String) :
    x ∈ columnsInOrder sample ↔ ∃ r ∈ sample, containsKey r x := by
  unfold columnsInOrder
  suffices h : ∀ a : List String,
      x ∈ sample.foldl (fun acc r =>
        r.foldl (fun a kv => if a.contains kv.1 then a else a ++ [kv.1]) acc) a ↔
      x ∈ a ∨ ∃ r ∈ sample, containsKey r x by
    simpa using h []
  induction sample with
  | nil => simp
  | cons r rest ih =>
    intro a
    rw [List.foldl_cons, ih, mem_recKeysFold]
    simp [or_assoc]

theorem colCount_pos_iff (sample : List Record) (c : String) :
    0 < colCount sample c ↔ ∃ r ∈ sample, containsKey r c := by
  unfold colCount
  rw [List.length_pos_iff_exists_mem]
  constructor
  · rintro ⟨r, hr⟩
    have := List.mem_filter.mp hr
    exact ⟨r, this.1, this.2⟩
  · rintro ⟨r, hr, hc⟩
    exact ⟨r, List.mem_filter.mpr ⟨hr, hc⟩⟩

theorem performEda_pk (sample : List Record) (sig : String → Option String)
    (pk : String) (h : performEda sample = some (sig, pk)) :
    sig = inferredType sample ∧ pk ∈ columnsInOrder sample ∧
      colCount sample pk = sample.length := by
  unfold performEda at h
  cases hf : (columnsInOrder sample).find?
      (fun c => colCount sample c == sample.length) with
  | none => rw [hf] at h; exact absurd h (by simp)
  | some q =>
    rw [hf] at h
    have hq := List.find?_some hf
    have hmem := List.mem_of_find?_eq_some hf
    simp only [Option.some.injEq, Prod.mk.injEq] at h
    obtain ⟨hs, hp⟩ := h
    subst hs hp
    exact ⟨rfl, hmem, by simpa using hq⟩

/-- C10: for an empty source (zero records) both versions of `perform_eda`
raise the no-primary-key `ValueError` (modelled as `none`) instead of
returning an empty schema: with no records there are no primary-key
candidates, so inference fails before any schema or relation is produced. -/
theorem performEda_empty_fails :
    performEda [] = none ∧ performEdaV0 [] = none :=
  ⟨rfl, rfl⟩

/-- C5: whenever schema inference returns, a field is a column of the
inferred schema iff its occurrence count `k` over the `n` sampled records
meets the presence threshold `k ≥ 0.97 × n` (as the exact comparison
`100 k ≥ 97 n`). -/
theorem schema_mem_iff_presence_threshold (sample : List Record)
    (sig : String → Option String) (pk : String) (c : String)
    (h : performEda sample = some (sig, pk)) :
    (sig c).isSome ↔ 100 * colCount sample c ≥ 97 * sample.length := by
  obtain ⟨hs, hpk, -⟩ := performEda_pk sample sig pk h
  subst hs
  unfold inferredType
  by_cases hin : c ∈ columnsInOrder sample
  · by_cases hth : 100 * colCount sample c ≥ 97 * sample.length
    · simp [hin, hth]
    · simp [hin, hth]
  · have hcc : colCount sample c = 0 := by
      by_contra hne
      exact hin ((mem_columnsInOrder sample c).mpr
        ((colCount_pos_iff sample c).mp (Nat.pos_of_ne_zero hne)))
    constructor
    · intro hsome
      exfalso
      by_cases hcond : ((columnsInOrder sample).contains c = true ∧
          100 * colCount sample c ≥ 97 * sample.length)
      · exact hin (by simpa using hcond.1)
      · rw [if_neg hcond] at hsome
        simp at hsome
    · intro hth
      exfalso
      rw [hcc] at hth
      have hz : sample.length = 0 := by omega
      have hsample : sample = [] := List.length_eq_zero.mp hz
      subst hsample
      simp [columnsInOrder] at hpk

theorem schema_mem_iff_presence_threshold_w :
    ((inferredType [[("Id", JValue.jint 1)],
        [("Id", JValue.jint 2), ("X", JValue.jstr "a")]] "X").isSome ↔
      100 * colCount [[("Id", JValue.jint 1)],
        [("Id", JValue.jint 2), ("X", JValue.jstr "a")]] "X" ≥ 97 * 2) :=
  schema_mem_iff_presence_threshold _ _ "Id" "X" rfl

/-- C6: whenever schema inference returns, a retained field is typed
`INTEGER` iff strictly more than half of its observed occurrences classify
as integers, and `STRING` otherwise — except `CreationDate`, which is always
`TIMESTAMP` when retained. -/
theorem schema_type_majority (sample : List Record)
    (sig : String → Option String) (pk : String) (c : String) (ty : String)
    (h : performEda sample = some (sig, pk)) (hc : sig c = some ty) :
    (c = "CreationDate" → ty = "TIMESTAMP") ∧
      (c ≠ "CreationDate" →
        ((ty = "INTEGER" ↔ 2 * intCount sample c > occCount sample c) ∧
         (ty = "STRING" ↔ ¬ 2 * intCount sample c > occCount sample c))) := by
  obtain ⟨hs, -, -⟩ := performEda_pk sample sig pk h
  subst hs
  unfold inferredType at hc
  by_cases hcond : ((columnsInOrder sample).contains c = true ∧
      100 * colCount sample c ≥ 97 * sample.length)
  · rw [if_pos hcond] at hc
    have hty := Option.some.inj hc
    constructor
    · intro hcd
      rw [if_pos hcd] at hty
      exact hty.symm
    · intro hcd
      rw [if_neg hcd] at hty
      unfold majorityType at hty
      by_cases hmaj : 2 * intCount sample c > occCount sample c
      · rw [if_pos hmaj] at hty
        subst hty
        simp [hmaj]
      · rw [if_neg hmaj] at hty
        subst hty
        simp [hmaj]
  · rw [if_neg hcond] at hc
    exact absurd hc (by simp)

theorem schema_type_majority_w :
    (("Id" : String) = "CreationDate" → ("INTEGER" : String) = "TIMESTAMP") ∧
      (("Id" : String) ≠ "CreationDate" →
        ((("INTEGER" : String) = "INTEGER" ↔
            2 * intCount [[("Id", JValue.jint 1)]] "Id" >
              occCount [[("Id", JValue.jint 1)]] "Id") ∧
         (("INTEGER" : String) = "STRING" ↔
            ¬ 2 * intCount [[("Id", JValue.jint 1)]] "Id" >
              occCount [[("Id", JValue.jint 1)]] "Id"))) :=
  schema_type_majority [[("Id", JValue.jint 1)]] _ "Id" "Id" "INTEGER"
    rfl (by decide)

/-- C9: whenever `perform_eda` (src/ingest1.py) returns, the chosen primary
key is a column of the returned schema — its count equals `total_rows`, so it
meets the `0.97 × total_rows` presence threshold and is retained. -/
theorem primary_key_in_schema (sample : List Record)
    (sig : String → Option String) (pk : String)
    (h : performEda sample = some (sig, pk)) : (sig pk).isSome := by
  obtain ⟨hs, hmem, hcnt⟩ := performEda_pk sample sig pk h
  subst hs
  unfold inferredType
  have hin : (columnsInOrder sample).contains pk = true := by
    simpa using hmem
  have hth : 100 * colCount sample pk ≥ 97 * sample.length := by
    rw [hcnt]
    exact Nat.mul_le_mul_right _ (by norm_num)
  simp [hmem, hth]

theorem primary_key_in_schema_w :
    (inferredType [[("Id", JValue.jint 1)]] "Id").isSome :=
  primary_key_in_schema [[("Id", JValue.jint 1)]] _ "Id" rfl

/-- C3 (failing input): on the sample
`[{"A": 1, "Id": 7}, {"A": 1, "Id": 8}]` the field `"A"` is present in every
record but carries the repeated value `1`; `perform_eda` (src/ingest1.py)
nevertheless selects `"A"` as the primary key, because it checks only full
presence (`count == total_rows`) and never value uniqueness. -/
theorem pk_selection_ignores_value_uniqueness :
    (performEda [[("A", JValue.jint 1), ("Id", JValue.jint 7)],
        [("A", JValue.jint 1), ("Id", JValue.jint 8)]]).map Prod.snd
      = some "A" ∧
    occList [[("A", JValue.jint 1), ("Id", JValue.jint 7)],
        [("A", JValue.jint 1), ("Id", JValue.jint 8)]] "A"
      = [JValue.jint 1, JValue.jint 1] := by
  exact ⟨by decide, by decide⟩

/-- C2 (failing input): a record missing a declared `TIMESTAMP` column gets
the ingestion-time placeholder `datetime.now().strftime('%Y-%m-%d %H:%M:%S')`
injected — but that placeholder uses a space separator while the coercion
step parses with `'%Y-%m-%dT%H:%M:%S'`, so the coercion raises `ValueError`
and the record is skipped, for every possible ingestion time — not stored as
the claim (and the spec) state. -/
theorem missing_timestamp_record_skipped (t : Timestamp) :
    (processRecord [("Id", "INTEGER"), ("CreationDate", "TIMESTAMP")]
        (strftimeSpace t) [("Id", JValue.jint 1)]).out
      = Outcome.skipped := by
  have h1 : coerceVal "TIMESTAMP" (some (JValue.jstr (strftimeSpace t)))
      = CVal.err := by
    simp [coerceVal, parseTs_strftimeSpace]
  simp [processRecord, inject, containsKey, defaultFor, coerceRow, h1,
    coerceVal, List.lookup, parseTs_strftimeSpace]

/-- C1 (amended): inside the `try` of `ingest_votes` a record that fails
coercion is skipped and processing continues with the next line; but a line
that does not parse as a JSON object is read by `json.loads` *before* the
`try`, so it aborts the run, leaving the relation as it was. -/
theorem malformed_aborts_coercion_failure_skips (cols : Schema) (now pk : String)
    (rest : List JLine) (R : Rel) (rec : Record) :
    runIngest cols now pk (JLine.malformed :: rest) R = (R, true) ∧
    ((processRecord cols now rec).out = Outcome.skipped →
      runIngest cols now pk (JLine.obj rec :: rest) R =
        runIngest cols now pk rest R) := by
  refine ⟨rfl, fun h => ?_⟩
  simp [runIngest, h]

theorem malformed_aborts_coercion_failure_skips_w :
    runIngest [("Id", "INTEGER")] "x" "Id"
        [JLine.obj [("Id", JValue.jstr "zz")]] emptyRel =
      runIngest [("Id", "INTEGER")] "x" "Id" [] emptyRel :=
  (malformed_aborts_coercion_failure_skips [("Id", "INTEGER")] "x" "Id" []
    emptyRel [("Id", JValue.jstr "zz")]).2 (by decide)

/-- C1 (counterexample): on the two-line source
`[malformed, {"Id": 1}]` the run aborts at the malformed first line
(`json.loads` raises outside the `try`), and the well-formed second line is
never ingested — contradicting the claim that a malformed line is skipped
alone and affects no other line. -/
theorem malformed_line_aborts_run :
    (runIngest [("Id", "INTEGER")] "x" "Id"
        [JLine.malformed, JLine.obj [("Id", JValue.jint 1)]] emptyRel).2
      = true ∧
    (runIngest [("Id", "INTEGER")] "x" "Id"
        [JLine.malformed, JLine.obj [("Id", JValue.jint 1)]] emptyRel).1
        (DBValue.int 1)
      = none :=
  ⟨rfl, rfl⟩

theorem lookup_isSome_eq_containsKey (r : Record) (c : String) :
    (List.lookup c r).isSome = containsKey r c := by
  induction r with
  | nil => rfl
  | cons kv rest ih =>
    by_cases h : c = kv.1
    · have hb : (c == kv.1) = true := beq_iff_eq.mpr h
      have hb2 : (kv.1 == c) = true := beq_iff_eq.mpr h.symm
      simp [List.lookup, containsKey, hb, hb2]
    · have hb : (c == kv.1) = false := beq_eq_false_iff_ne.mpr h
      have hb2 : (kv.1 == c) = false :=
        beq_eq_false_iff_ne.mpr (fun hh => h hh.symm)
      simpa [List.lookup, containsKey, hb, hb2] using ih

theorem lookup_eq_none_of_not_containsKey (r : Record) (c : String)
    (h : ¬ containsKey r c = true) : List.lookup c r = none := by
  cases hl : List.lookup c r with
  | none => rfl
  | some v =>
    exfalso
    apply h
    rw [← lookup_isSome_eq_containsKey, hl]
    rfl

theorem lookup_filter_of_keep (r : Record) (p : String × JValue → Bool)
    (c : String) (hp : ∀ v, p (c, v) = true) :
    List.lookup c (r.filter p) = List.lookup c r := by
  induction r with
  | nil => rfl
  | cons kv rest ih =>
    obtain ⟨k, v⟩ := kv
    by_cases h : c = k
    · subst h
      simp [List.filter_cons, hp v, List.lookup]
    · have hb : (c == k) = false := beq_eq_false_iff_ne.mpr h
      cases hp2 : p (k, v) with
      | true => simp [List.filter_cons, hp2, List.lookup, hb, ih]
      | false => simp [List.filter_cons, hp2, List.lookup, hb, ih]

theorem coerceRow_ok_keys (r : Record) (cols : Schema)
    (row : List (String × DBValue)) (h : coerceRow r cols = CRow.ok row) :
    row.map Prod.fst = cols.map Prod.fst := by
  induction cols generalizing row with
  | nil =>
    simp only [coerceRow, CRow.ok.injEq] at h
    subst h
    rfl
  | cons e rest ih =>
    obtain ⟨c, ty⟩ := e
    simp only [coerceRow] at h
    cases hv : coerceVal ty (List.lookup c r) with
    | ok v =>
      rw [hv] at h
      cases hr : coerceRow r rest with
      | ok row2 =>
        rw [hr] at h
        simp only [CRow.ok.injEq] at h
        subst h
        simp [ih row2 hr]
      | err => rw [hr] at h; exact absurd h (by simp)
      | fatal => rw [hr] at h; exact absurd h (by simp)
    | err => rw [hv] at h; exact absurd h (by simp)
    | fatal => rw [hv] at h; exact absurd h (by simp)

theorem coerceRow_congr (r1 r2 : Record) (cols : Schema)
    (h : ∀ c ty, (c, ty) ∈ cols → List.lookup c r1 = List.lookup c r2) :
    coerceRow r1 cols = coerceRow r2 cols := by
  induction cols with
  | nil => rfl
  | cons e rest ih =>
    obtain ⟨c, ty⟩ := e
    have hl : List.lookup c r1 = List.lookup c r2 :=
      h c ty (List.mem_cons_self _ _)
    have hrest := ih (fun c2 ty2 hm => h c2 ty2 (List.mem_cons_of_mem _ hm))
    simp only [coerceRow, hl, hrest]

theorem subset_inject_keys (now : String) (cols : Schema) (r : Record)
    (k : String) (h : k ∈ r.map Prod.fst) :
    k ∈ (inject now cols r).map Prod.fst := by
  induction cols generalizing r with
  | nil => exact h
  | cons e rest ih =>
    obtain ⟨c, ty⟩ := e
    simp only [inject]
    by_cases hc : containsKey r c = true
    · rw [if_pos hc]
      exact ih r h
    · rw [if_neg hc]
      cases hd : defaultFor ty now with
      | none => exact ih r h
      | some v => exact ih _ (by simp [h])

theorem inject_keys_subset (now : String) (cols : Schema) (r : Record)
    (k : String) (h : k ∈ (inject now cols r).map Prod.fst) :
    k ∈ r.map Prod.fst ∨ k ∈ cols.map Prod.fst := by
  induction cols generalizing r with
  | nil => exact Or.inl h
  | cons e rest ih =>
    obtain ⟨c, ty⟩ := e
    simp only [inject] at h
    by_cases hc : containsKey r c = true
    · rw [if_pos hc] at h
      rcases ih r h with h2 | h2
      · exact Or.inl h2
      · exact Or.inr (by simp [h2])
    · rw [if_neg hc] at h
      cases hd : defaultFor ty now with
      | none =>
        rw [hd] at h
        rcases ih r h with h2 | h2
        · exact Or.inl h2
        · exact Or.inr (by simp [h2])
      | some v =>
        rw [hd] at h
        rcases ih _ h with h2 | h2
        · rcases (by simpa using h2 :
              k ∈ r.map Prod.fst ∨ k = c) with h3 | h3
          · exact Or.inl h3
          · exact Or.inr (by simp [h3])
        · exact Or.inr (by simp [h2])

theorem defaultFor_eq_none (ty now : String)
    (h : ¬ (ty = "INTEGER" ∨ ty = "TIMESTAMP")) : defaultFor ty now = none := by
  push_neg at h
  simp [defaultFor, h.1, h.2]

theorem defaultFor_eq_some (ty now : String) (v : JValue)
    (h : defaultFor ty now = some v) :
    (ty = "INTEGER" ∨ ty = "TIMESTAMP") ∧ defaultVal now ty = v := by
  by_cases h1 : ty = "INTEGER"
  · refine ⟨Or.inl h1, ?_⟩
    rw [defaultFor, if_pos h1] at h
    simp only [Option.some.injEq] at h
    simp [defaultVal, h1, h]
  · by_cases h2 : ty = "TIMESTAMP"
    · refine ⟨Or.inr h2, ?_⟩
      rw [defaultFor, if_neg h1, if_pos h2] at h
      simp only [Option.some.injEq] at h
      simp [defaultVal, h1, h2, h]
    · rw [defaultFor, if_neg h1, if_neg h2] at h
      exact absurd h (by simp)

theorem inject_lookup (now : String) (cols : Schema) (r : Record) (c : String) :
    List.lookup c (inject now cols r) =
      (List.lookup c r).or ((firstDefault cols c).map (defaultVal now)) := by
  induction cols generalizing r with
  | nil => simp [inject, firstDefault]
  | cons e rest ih =>
    obtain ⟨k, ty⟩ := e
    simp only [inject, firstDefault]
    by_cases hk : containsKey r k = true
    · rw [if_pos hk, ih]
      by_cases hcond : (k = c ∧ (ty = "INTEGER" ∨ ty = "TIMESTAMP"))
      · obtain ⟨hkc, hdef⟩ := hcond
        subst hkc
        have hs : (List.lookup k r).isSome = true := by
          rw [lookup_isSome_eq_containsKey]
          exact hk
        obtain ⟨v, hv⟩ := Option.isSome_iff_exists.mp hs
        rw [hv, if_pos ⟨rfl, hdef⟩]
        rfl
      · rw [if_neg hcond]
    · rw [if_neg hk]
      cases hd : defaultFor ty now with
      | none =>
        rw [ih]
        have hnd : ¬ (ty = "INTEGER" ∨ ty = "TIMESTAMP") := by
          intro hor
          rcases hor with h1 | h1 <;> simp [defaultFor, h1] at hd
        rw [if_neg (fun hcon => hnd hcon.2)]
      | some v =>
        rw [ih, List.lookup_append]
        by_cases hkc : k = c
        · subst hkc
          have hnone : List.lookup k r = none :=
            lookup_eq_none_of_not_containsKey r k (by simp [hk])
          obtain ⟨hdef, hdv⟩ := defaultFor_eq_some ty now v hd
          rw [hnone, if_pos ⟨rfl, hdef⟩]
          simp [List.lookup, hdv]
        · have hn2 : List.lookup c [(k, v)] = none := by
            simp [List.lookup, beq_eq_false_iff_ne.mpr (fun hh => hkc hh.symm)]
          rw [hn2, Option.or_none, if_neg (fun hcon => hkc hcon.1)]

/-- C8: a record carrying fields outside the inferred schema is not harmed by
them: the reported extra fields are exactly the record fields missing from
the schema, an inserted row consists of exactly the schema columns, and the
record's fate (inserted / skipped / aborted) is the same as that of the
record restricted to the schema columns — extra fields never cause a skip. -/
theorem extra_fields_dropped (cols : Schema) (now : String) (rec : Record) :
    (∀ k, k ∈ (processRecord cols now rec).extras ↔
        (k ∈ rec.map Prod.fst ∧ k ∉ cols.map Prod.fst)) ∧
    (∀ row, (processRecord cols now rec).out = Outcome.inserted row →
        row.map Prod.fst = cols.map Prod.fst) ∧
    (processRecord cols now
        (rec.filter (fun kv => (cols.map Prod.fst).contains kv.1))).out =
      (processRecord cols now rec).out := by
  refine ⟨?_, ?_, ?_⟩
  · intro k
    constructor
    · intro hk
      have hk2 : k ∈ ((inject now cols rec).map Prod.fst).dedup.filter
          (fun k => !((cols.map Prod.fst).contains k)) := hk
      obtain ⟨hmem, hnc⟩ := List.mem_filter.mp hk2
      have hmem2 : k ∈ (inject now cols rec).map Prod.fst :=
        List.mem_dedup.mp hmem
      have hnotin : k ∉ cols.map Prod.fst := by
        intro hin
        have hcc : (cols.map Prod.fst).contains k = true := by
          simpa [List.elem_iff] using hin
        rw [hcc] at hnc
        exact absurd hnc (by simp)
      rcases inject_keys_subset now cols rec k hmem2 with h2 | h2
      · exact ⟨h2, hnotin⟩
      · exact absurd h2 hnotin
    · rintro ⟨hmem, hnotin⟩
      have hc : (cols.map Prod.fst).contains k = false := by
        cases hcc : (cols.map Prod.fst).contains k with
        | false => rfl
        | true => exact absurd (by simpa [List.elem_iff] using hcc) hnotin
      show k ∈ ((inject now cols rec).map Prod.fst).dedup.filter
          (fun k => !((cols.map Prod.fst).contains k))
      refine List.mem_filter.mpr
        ⟨List.mem_dedup.mpr (subset_inject_keys now cols rec k hmem), ?_⟩
      show (!((cols.map Prod.fst).contains k)) = true
      rw [hc]
      rfl
  · intro row h
    simp only [processRecord] at h
    cases hr : coerceRow (inject now cols rec) cols with
    | ok row2 =>
      rw [hr] at h
      simp only [Outcome.inserted.injEq] at h
      subst h
      exact coerceRow_ok_keys _ _ _ hr
    | err => rw [hr] at h; exact absurd h (by simp)
    | fatal => rw [hr] at h; exact absurd h (by simp)
  · have hcr : coerceRow (inject now cols
        (rec.filter (fun kv => (cols.map Prod.fst).contains kv.1))) cols =
        coerceRow (inject now cols rec) cols := by
      apply coerceRow_congr
      intro c ty hm
      have hcc : (cols.map Prod.fst).contains c = true := by
        have : c ∈ cols.map Prod.fst :=
          List.mem_map.mpr ⟨(c, ty), hm, rfl⟩
        simpa [List.elem_iff] using this
      rw [inject_lookup, inject_lookup,
        lookup_filter_of_keep rec _ c (fun v => hcc)]
    simp only [processRecord, hcr]

theorem extra_fields_dropped_w :
    ("Junk" ∈ (processRecord [("Id", "INTEGER")] "x"
        [("Id", JValue.jint 1), ("Junk", JValue.jstr "y")]).extras) ∧
    [("Id", DBValue.int 1)].map Prod.fst =
      [(("Id" : String), ("INTEGER" : String))].map Prod.fst := by
  constructor
  · exact ((extra_fields_dropped [("Id", "INTEGER")] "x"
      [("Id", JValue.jint 1), ("Junk", JValue.jstr "y")]).1 "Junk").mpr
      (by decide)
  · exact (extra_fields_dropped [("Id", "INTEGER")] "x"
      [("Id", JValue.jint 1), ("Junk", JValue.jstr "y")]).2.1
      [("Id", DBValue.int 1)] (by decide)

theorem meanCount_nonneg (rows : List VoteRow) : 0 ≤ meanCount rows := by
  unfold meanCount
  apply div_nonneg
  · apply List.sum_nonneg
    intro x hx
    obtain ⟨w, hw, hxe⟩ := List.mem_map.mp hx
    rw [← hxe]
    exact Nat.cast_nonneg _
  · exact Nat.cast_nonneg _

theorem varCount_nonneg (rows : List VoteRow) : 0 ≤ varCount rows := by
  unfold varCount
  apply div_nonneg
  · apply List.sum_nonneg
    intro x hx
    obtain ⟨c, hc, hxe⟩ := List.mem_map.mp hx
    rw [← hxe]
    exact sq_nonneg _
  · exact Nat.cast_nonneg _

theorem outlierCond_iff_sqrt (c m v : ℚ) (hv : 0 ≤ v) :
    outlierCond c m v = true ↔
      (m : ℝ) + 2 * Real.sqrt (v : ℝ) < (c : ℝ) := by
  unfold outlierCond
  rw [Bool.and_eq_true, decide_eq_true_eq, decide_eq_true_eq]
  have hvr : (0 : ℝ) ≤ (v : ℝ) := by exact_mod_cast hv
  have hsn : 0 ≤ Real.sqrt (v : ℝ) := Real.sqrt_nonneg _
  constructor
  · rintro ⟨hm, hsq⟩
    have hm2 : (m : ℝ) < c := by exact_mod_cast hm
    have hsq2 : (4 : ℝ) * v < ((c : ℝ) - m) ^ 2 := by exact_mod_cast hsq
    have hs : 2 * Real.sqrt (v : ℝ) < (c : ℝ) - m := by
      apply lt_of_pow_lt_pow_left₀ 2 (by linarith)
      calc (2 * Real.sqrt (v : ℝ)) ^ 2
          = 4 * (Real.sqrt (v : ℝ) ^ 2) := by ring
        _ = 4 * (v : ℝ) := by rw [Real.sq_sqrt hvr]
        _ < ((c : ℝ) - m) ^ 2 := hsq2
    linarith
  · intro h
    have hm2 : (m : ℝ) < c := by linarith
    have h2 : 2 * Real.sqrt (v : ℝ) < (c : ℝ) - m := by linarith
    have h3 : (4 : ℝ) * v < ((c : ℝ) - m) ^ 2 := by
      calc (4 : ℝ) * v = (2 * Real.sqrt (v : ℝ)) ^ 2 := by
            rw [mul_pow, Real.sq_sqrt hvr]; norm_num
        _ < ((c : ℝ) - m) ^ 2 := pow_lt_pow_left₀ h2 (by linarith) (by norm_num)
    exact ⟨by exact_mod_cast hm2, by exact_mod_cast h3⟩

theorem weekCount_eq_zero_of_not_mem (rows : List VoteRow) (w : Int)
    (h : w ∉ weeks rows) : weekCount rows w = 0 := by
  unfold weekCount
  rw [List.length_eq_zero, List.filter_eq_nil_iff]
  intro r hr hb
  apply h
  unfold weeks
  exact List.mem_dedup.mpr (List.mem_map.mpr ⟨r, hr, by simpa using hb⟩)

/-- C7: a week appears in the `outlier_weeks` view iff its matching
(`VoteTypeId = 2`) vote count strictly exceeds
`mean + 2 × population standard deviation` of the per-week counts over all
observed weeks; in particular, whenever every observed week has the same
count (e.g. three records in three distinct weeks), the standard deviation is
0, the threshold equals the mean, and the view is empty. -/
theorem outlier_view_iff (rows : List VoteRow) (w : Int) :
    (w ∈ outlierWeeks rows ↔
      (meanCount rows : ℝ) + 2 * Real.sqrt (varCount rows : ℝ) <
        (weekCount rows w : ℝ)) ∧
    ((∀ w1 ∈ weeks rows, ∀ w2 ∈ weeks rows,
        weekCount rows w1 = weekCount rows w2) → outlierWeeks rows = []) := by
  constructor
  · unfold outlierWeeks
    rw [List.mem_filter]
    constructor
    · rintro ⟨hmem, hcond⟩
      have h := (outlierCond_iff_sqrt _ _ _ (varCount_nonneg rows)).mp hcond
      exact_mod_cast h
    · intro hcond
      have hv := varCount_nonneg rows
      have hmem : w ∈ weeks rows := by
        by_contra hnm
        rw [weekCount_eq_zero_of_not_mem rows w hnm] at hcond
        have hm : (0 : ℝ) ≤ (meanCount rows : ℝ) := by
          exact_mod_cast meanCount_nonneg rows
        have hsn : 0 ≤ Real.sqrt ((varCount rows : ℚ) : ℝ) :=
          Real.sqrt_nonneg _
        norm_num at hcond
        linarith
      refine ⟨hmem, ?_⟩
      exact (outlierCond_iff_sqrt _ _ _ hv).mpr (by exact_mod_cast hcond)
  · intro hall
    unfold outlierWeeks
    rw [List.filter_eq_nil_iff]
    intro w2 hw2
    have hne : ((counts rows).length : ℚ) ≠ 0 := by
      have : (weeks rows).length ≠ 0 := by
        intro h0
        rw [List.length_eq_zero] at h0
        rw [h0] at hw2
        exact absurd hw2 (List.not_mem_nil _)
      unfold counts
      rw [List.length_map]
      exact_mod_cast this
    have hmean : meanCount rows = (weekCount rows w2 : ℚ) := by
      have hsum : (counts rows).sum =
          (counts rows).length • ((weekCount rows w2 : ℚ)) := by
        apply List.sum_eq_card_nsmul
        intro x hx
        obtain ⟨w1, hw1, hxe⟩ := List.mem_map.mp hx
        rw [← hxe, hall w1 hw1 w2 hw2]
      unfold meanCount
      rw [hsum, nsmul_eq_mul]
      field_simp
    show ¬ outlierCond ((weekCount rows w2 : ℚ)) (meanCount rows)
        (varCount rows) = true
    unfold outlierCond
    rw [hmean]
    simp

theorem outlier_view_iff_w :
    outlierWeeks [⟨0, 2⟩, ⟨1, 2⟩, ⟨2, 2⟩] = [] :=
  (outlier_view_iff [⟨0, 2⟩, ⟨1, 2⟩, ⟨2, 2⟩] 0).2 (by decide)

theorem firstDefault_mem (cols : Schema) (c ty : String)
    (h : firstDefault cols c = some ty) : (c, ty) ∈ cols := by
  induction cols with
  | nil => exact absurd h (by simp [firstDefault])
  | cons e rest ih =>
    obtain ⟨k, ty2⟩ := e
    simp only [firstDefault] at h
    by_cases hcond : (k = c ∧ (ty2 = "INTEGER" ∨ ty2 = "TIMESTAMP"))
    · rw [if_pos hcond] at h
      have hty : ty2 = ty := Option.some.inj h
      exact List.mem_cons.mpr (Or.inl (by rw [hcond.1, hty]))
    · rw [if_neg hcond] at h
      exact List.mem_cons_of_mem _ (ih h)

theorem firstDefault_types (cols : Schema) (c ty : String)
    (h : firstDefault cols c = some ty) :
    ty = "INTEGER" ∨ ty = "TIMESTAMP" := by
  induction cols with
  | nil => exact absurd h (by simp [firstDefault])
  | cons e rest ih =>
    obtain ⟨k, ty2⟩ := e
    simp only [firstDefault] at h
    by_cases hcond : (k = c ∧ (ty2 = "INTEGER" ∨ ty2 = "TIMESTAMP"))
    · rw [if_pos hcond] at h
      have hty : ty2 = ty := Option.some.inj h
      exact hty ▸ hcond.2
    · rw [if_neg hcond] at h
      exact ih h

theorem coerceRow_pending_ts (r : Record) (c : String) (now : String)
    (hp : parseTs now = none) (hl : List.lookup c r = some (JValue.jstr now)) :
    ∀ cols : Schema, (c, "TIMESTAMP") ∈ cols →
      coerceRow r cols = CRow.err ∨ coerceRow r cols = CRow.fatal := by
  intro cols
  induction cols with
  | nil => intro h; exact absurd h (List.not_mem_nil _)
  | cons e rest ih =>
    intro hmem
    obtain ⟨k, ty⟩ := e
    rcases List.mem_cons.mp hmem with heq | hmem2
    · injection heq with h1 h2
      subst h1
      subst h2
      left
      simp only [coerceRow, hl]
      simp [coerceVal, hp]
    · cases hcv : coerceVal ty (List.lookup k r) with
      | ok v =>
        rcases ih hmem2 with he | he
        · left; simp only [coerceRow, hcv, he]
        · right; simp only [coerceRow, hcv, he]
      | err => left; simp only [coerceRow, hcv]
      | fatal => right; simp only [coerceRow, hcv]

theorem keyRel_transfer (nowA nowB : String) (hpB : parseTs nowB = none)
    (r1 r2 : Record) (k ty : String) (rest : Schema)
    (h : ∀ c, List.lookup c r1 = List.lookup c r2 ∨
        (List.lookup c r1 = some (JValue.jstr nowA) ∧
         List.lookup c r2 = some (JValue.jstr nowB) ∧
         firstDefault ((k, ty) :: rest) c = some "TIMESTAMP"))
    (hcv : ∃ v, coerceVal ty (List.lookup k r2) = CVal.ok v) :
    ∀ c, List.lookup c r1 = List.lookup c r2 ∨
        (List.lookup c r1 = some (JValue.jstr nowA) ∧
         List.lookup c r2 = some (JValue.jstr nowB) ∧
         firstDefault rest c = some "TIMESTAMP") := by
  intro c
  rcases h c with hA | ⟨f1, f2, hfd⟩
  · exact Or.inl hA
  · by_cases hcond : (k = c ∧ (ty = "INTEGER" ∨ ty = "TIMESTAMP"))
    · exfalso
      have hty : ty = "TIMESTAMP" := by
        have hfd2 := hfd
        simp only [firstDefault] at hfd2
        rw [if_pos hcond] at hfd2
        exact Option.some.inj hfd2
      obtain ⟨v, hv⟩ := hcv
      rw [hcond.1, f2, hty] at hv
      simp [coerceVal, hpB] at hv
    · refine Or.inr ⟨f1, f2, ?_⟩
      have hfd2 := hfd
      simp only [firstDefault] at hfd2
      rwa [if_neg hcond] at hfd2

theorem coerceRow_now_congr (nowA nowB : String)
    (hpA : parseTs nowA = none) (hpB : parseTs nowB = none)
    (r1 r2 : Record) :
    ∀ cols : Schema,
      (∀ c, List.lookup c r1 = List.lookup c r2 ∨
        (List.lookup c r1 = some (JValue.jstr nowA) ∧
         List.lookup c r2 = some (JValue.jstr nowB) ∧
         firstDefault cols c = some "TIMESTAMP")) →
      coerceRow r1 cols = coerceRow r2 cols := by
  intro cols
  induction cols with
  | nil => intro h; rfl
  | cons e rest ih =>
    intro h
    obtain ⟨k, ty⟩ := e
    rcases h k with hA | ⟨e1, e2, hfd⟩
    · cases hcv : coerceVal ty (List.lookup k r2) with
      | err => simp only [coerceRow, hA, hcv]
      | fatal => simp only [coerceRow, hA, hcv]
      | ok v =>
        have hrest := ih (keyRel_transfer nowA nowB hpB r1 r2 k ty rest h ⟨v, hcv⟩)
        simp only [coerceRow, hA, hcv, hrest]
    · by_cases hcond : (ty = "INTEGER" ∨ ty = "TIMESTAMP")
      · have hty : ty = "TIMESTAMP" := by
          have hfd2 := hfd
          simp only [firstDefault] at hfd2
          rw [if_pos ⟨trivial, hcond⟩] at hfd2
          exact Option.some.inj hfd2
        simp only [coerceRow, hty, e1, e2]
        simp [coerceVal, hpA, hpB]
      · have hnd : ¬ (ty = "INTEGER" ∨ ty = "TIMESTAMP") := hcond
        push_neg at hnd
        have hfdr : firstDefault rest k = some "TIMESTAMP" := by
          have hfd2 := hfd
          simp only [firstDefault] at hfd2
          rwa [if_neg (fun hc => hc.2.elim hnd.1 hnd.2)] at hfd2
        have hcv1 : coerceVal ty (List.lookup k r1) =
            CVal.ok (DBValue.str nowA) := by
          rw [e1]
          simp [coerceVal, hnd.1, hnd.2]
        have hcv2 : coerceVal ty (List.lookup k r2) =
            CVal.ok (DBValue.str nowB) := by
          rw [e2]
          simp [coerceVal, hnd.1, hnd.2]
        have hrest := ih (keyRel_transfer nowA nowB hpB r1 r2 k ty rest h
          ⟨DBValue.str nowB, hcv2⟩)
        have hmem : (k, "TIMESTAMP") ∈ rest := firstDefault_mem rest k _ hfdr
        have hnotok := coerceRow_pending_ts r2 k nowB hpB e2 rest hmem
        simp only [coerceRow, hcv1, hcv2, hrest]
        rcases hnotok with he | he
        · simp only [he]
        · simp only [he]

theorem inject_now_rel (nowA nowB : String) (cols : Schema) (rec : Record)
    (c : String) :
    List.lookup c (inject nowA cols rec) =
        List.lookup c (inject nowB cols rec) ∨
      (List.lookup c (inject nowA cols rec) = some (JValue.jstr nowA) ∧
       List.lookup c (inject nowB cols rec) = some (JValue.jstr nowB) ∧
       firstDefault cols c = some "TIMESTAMP") := by
  rw [inject_lookup, inject_lookup]
  cases hl : List.lookup c rec with
  | some v => exact Or.inl rfl
  | none =>
    cases hfd : firstDefault cols c with
    | none => exact Or.inl rfl
    | some ty =>
      rcases firstDefault_types cols c ty hfd with h1 | h1
      · subst h1
        exact Or.inl (by simp [defaultVal])
      · subst h1
        refine Or.inr ⟨by simp [defaultVal], by simp [defaultVal], rfl⟩

theorem processRecord_out_now (cols : Schema) (rec : Record)
    (nowA nowB : String) (hpA : parseTs nowA = none)
    (hpB : parseTs nowB = none) :
    (processRecord cols nowA rec).out = (processRecord cols nowB rec).out := by
  have hcr : coerceRow (inject nowA cols rec) cols =
      coerceRow (inject nowB cols rec) cols :=
    coerceRow_now_congr nowA nowB hpA hpB _ _ cols
      (fun c => inject_now_rel nowA nowB cols rec c)
  simp only [processRecord, hcr]

theorem runIngest_now_eq (cols : Schema) (pk now1 now2 : String)
    (hp1 : parseTs now1 = none) (hp2 : parseTs now2 = none) :
    ∀ (lines : List JLine) (R : Rel),
      runIngest cols now2 pk lines R = runIngest cols now1 pk lines R := by
  intro lines
  induction lines with
  | nil => intro R; rfl
  | cons l rest ih =>
    intro R
    cases l with
    | malformed => rfl
    | obj rec =>
      have hout : (processRecord cols now2 rec).out =
          (processRecord cols now1 rec).out :=
        processRecord_out_now cols rec now2 now1 hp2 hp1
      simp only [runIngest, hout]
      cases (processRecord cols now1 rec).out with
      | inserted row => exact ih _
      | skipped => exact ih R
      | crashed => rfl

theorem runIngest_fst (cols : Schema) (now pk : String) :
    ∀ (lines : List JLine) (R : Rel),
      (runIngest cols now pk lines R).1 =
        applyW R (writesOf cols now pk lines) := by
  intro lines
  induction lines with
  | nil => intro R; rfl
  | cons l rest ih =>
    intro R
    cases l with
    | malformed => rfl
    | obj rec =>
      cases hout : (processRecord cols now rec).out with
      | inserted row =>
        cases hlk : List.lookup pk row with
        | some k =>
          simp only [runIngest, writesOf, hout, hlk, ih, List.singleton_append]
          have hup : upsert pk row R =
              fun q => if q = k then some row else R q := by
            simp [upsert, hlk]
          rw [hup]
          rfl
        | none =>
          simp only [runIngest, writesOf, hout, hlk, ih, List.nil_append]
          have hup : upsert pk row R = R := by simp [upsert, hlk]
          rw [hup]
      | skipped => simp only [runIngest, writesOf, hout, ih]
      | crashed => simp only [runIngest, writesOf, hout, applyW]

theorem applyW_lookup (q : DBValue) :
    ∀ (ws : List (DBValue × List (String × DBValue))) (R : Rel),
      applyW R ws q =
        match findLastW q ws with
        | some row => some row
        | none => R q := by
  intro ws
  induction ws with
  | nil => intro R; rfl
  | cons kw rest ih =>
    intro R
    simp only [applyW, findLastW, ih]
    cases findLastW q rest with
    | some row => rfl
    | none =>
      by_cases hq : q = kw.1
      · simp [hq]
      · simp [hq]

theorem applyW_idem (R : Rel) (ws : List (DBValue × List (String × DBValue))) :
    applyW (applyW R ws) ws = applyW R ws := by
  funext q
  rw [applyW_lookup, applyW_lookup]
  cases hf : findLastW q ws with
  | some row => rfl
  | none => rfl

/-- C4: re-running `ingest_votes` over the same source lines — at a possibly
different wall-clock time — leaves the destination relation exactly as a
single run does: every successful record deterministically produces the same
upserted (key, row) pair (the ingestion-time placeholder never survives
coercion), and replaying the same write sequence against its own result is
the identity under insert-or-replace semantics. -/
theorem ingest_twice_idempotent (cols : Schema) (pk : String)
    (t1 t2 : Timestamp) (lines : List JLine) (R : Rel) :
    (runIngest cols (strftimeSpace t2) pk lines
        (runIngest cols (strftimeSpace t1) pk lines R).1).1 =
      (runIngest cols (strftimeSpace t1) pk lines R).1 := by
  rw [runIngest_now_eq cols pk (strftimeSpace t1) (strftimeSpace t2)
    (parseTs_strftimeSpace t1) (parseTs_strftimeSpace t2)]
  simp only [runIngest_fst]
  exact applyW_idem R (writesOf cols (strftimeSpace t1) pk lines)

end SelfAssign
